import Mathlib

/-!
Shallow embedding of the markup-to-styled-text converter in
`src/descriptions.rs` (`parse_text`, `try_parse_tag` and their data model).

Strings are modelled as `List Char`; all the byte offsets manipulated by the
Rust code land on boundaries of ASCII characters found by searches, so the
character-index model coincides with the byte-index one.  A Rust panic
(`unwrap` on an empty style stack, out-of-bounds indexing in `try_parse_tag`)
is modelled by `Option.none` in the outer `Option`; the `Except` layer models
the `miette::Result` return type, whose error variant the code never builds.
-/

/-- Unicode White_Space, the predicate behind Rust `char::is_whitespace`,
`str::trim_end` and the whitespace skip in `parse_text`. -/
def rustIsWhitespace (c : Char) : Bool :=
  let n := c.toNat
  (0x09 ≤ n && n ≤ 0x0D) || n == 0x20 || n == 0x85 || n == 0xA0 || n == 0x1680 ||
    (0x2000 ≤ n && n ≤ 0x200A) || n == 0x2028 || n == 0x2029 || n == 0x202F ||
    n == 0x205F || n == 0x3000

/-- Rust `str::trim_end` (used via `truncate(trim_end().len())`). -/
def trimEnd (s : List Char) : List Char :=
  (s.reverse.dropWhile rustIsWhitespace).reverse

/-- Rust `str::find` with a character predicate: index of the first match. -/
def findChar (p : Char → Bool) : List Char → Option Nat
  | [] => none
  | c :: rest => if p c then some 0 else (findChar p rest).map (· + 1)

/-- Rust `str::contains` with a string pattern (`text.contains("</p>")`). -/
def strContains (pat : List Char) : List Char → Bool
  | [] => pat.isPrefixOf []
  | c :: rest => pat.isPrefixOf (c :: rest) || strContains pat rest

/-- `TextStyle` from `descriptions.rs`. -/
structure TextStyle where
  bold : Bool
  italic : Bool
deriving DecidableEq, Repr

/-- `TextFragment` from `descriptions.rs` (text modelled as `List Char`). -/
structure TextFragment where
  text : List Char
  style : TextStyle
deriving DecidableEq, Repr

/-- `RichText` from `descriptions.rs`. -/
structure RichText where
  fragments : List TextFragment
deriving DecidableEq, Repr

/-- `TagType` from `descriptions.rs`. -/
inductive TagType where
  | Bold
  | Italic
  | Paragraph
  | Linebreak
deriving DecidableEq, Repr

/-- `TagType::is_style`. -/
def TagType.is_style : TagType → Bool
  | .Bold | .Italic => true
  | _ => false

/-- `Tag` from `descriptions.rs`; the source field `open` is a Lean keyword,
so it is called `isOpen` here. -/
structure Tag where
  ty : TagType
  isOpen : Bool
deriving DecidableEq, Repr

/-- The `match tag_text` table inside `try_parse_tag`. -/
def tagTypeOf : List Char → Option TagType
  | ['p'] => some TagType.Paragraph
  | ['b', 'r'] => some TagType.Linebreak
  | ['b'] => some TagType.Bold
  | ['i'] => some TagType.Italic
  | _ => none

/-- `try_parse_tag` from `descriptions.rs`.  The outer `Option` models a
panic: the source reads `bytes[1]` unconditionally, which is out of bounds
when the slice holds fewer than two characters.  `some none` is the source's
`None` (not a recognized tag); `some (some (tag, len))` is its
`Some((tag, len))` with `len` counting both markers. -/
def tryParseTag : List Char → Option (Option (Tag × Nat))
  | [] => none
  | [_] => none
  | c0 :: c1 :: rest =>
    let t := c0 :: c1 :: rest
    let opn := !(c1 == '/')
    let tagOpenLength : Nat := if c1 == '/' then 2 else 1
    match findChar (fun c => c == '>') t with
    | none => some none
    | some closeBracesPos =>
      -- call sites pass a slice starting at '<', so tagOpenLength ≤ closeBracesPos
      let tagText := (t.take closeBracesPos).drop tagOpenLength
      match tagTypeOf tagText with
      | none => some none
      | some ty => some (some (⟨ty, opn⟩, closeBracesPos + 1))

/-- The `push_newline` decision table in `parse_text` (lines 127-140). -/
def pushNewlineDecision (reasonableParagraphs : Bool) (tag : Tag) : Bool :=
  match tag.ty with
  | TagType.Linebreak => true
  | TagType.Paragraph => if reasonableParagraphs then !tag.isOpen else true
  | TagType.Bold | TagType.Italic => false

/-- The mutable locals of `parse_text`'s scan loop. -/
structure ScanState where
  fragments : List TextFragment
  style_stack : List TextStyle
  current_style : TextStyle
  cursor : Nat
  current_fragment : List Char
  search_start : Nat
deriving DecidableEq, Repr

/-- Initial values of the locals (lines 86-97). -/
def initState : ScanState :=
  { fragments := [], style_stack := [], current_style := ⟨false, false⟩,
    cursor := 0, current_fragment := [], search_start := 0 }

/-- Lines 103-160 of `parse_text`: handling of one recognized tag.  `none`
models a panic: `style_stack.pop().unwrap()` on an empty stack, or the
`unreachable!()` arm.  The style stack is modelled with its top at the head. -/
def handleRecognizedTag (text : List Char) (reasonableParagraphs : Bool)
    (st : ScanState) (tagStartByte : Nat) (tag : Tag) (tagLen : Nat) :
    Option ScanState :=
  -- line 104: text from the cursor up to the tag start joins the fragment
  let cf := st.current_fragment ++ (text.drop st.cursor).take (tagStartByte - st.cursor)
  -- lines 151-158: shared cursor update, with optional whitespace skip
  let afterTag := fun (fragments : List TextFragment) (stack : List TextStyle)
      (style : TextStyle) (cf : List Char) (skip : Bool) =>
    let cursor := tagStartByte + tagLen
    let cursor := if skip then
        cursor + ((findChar (fun c => !(rustIsWhitespace c)) (text.drop cursor)).getD text.length)
      else cursor
    ({ fragments := fragments, style_stack := stack, current_style := style,
       cursor := cursor, current_fragment := cf, search_start := cursor } : ScanState)
  if tag.ty.is_style then
    let fragments := st.fragments ++ [⟨cf, st.current_style⟩]
    if tag.isOpen then
      match tag.ty with
      | TagType.Bold =>
        some (afterTag fragments (st.current_style :: st.style_stack)
          { st.current_style with bold := true } [] false)
      | TagType.Italic =>
        some (afterTag fragments (st.current_style :: st.style_stack)
          { st.current_style with italic := true } [] false)
      | _ => none  -- unreachable!() in the source, excluded by is_style
    else
      match st.style_stack with
      | [] => none  -- style_stack.pop().unwrap() panics on an empty stack
      | s :: restStack => some (afterTag fragments restStack s [] false)
  else
    if pushNewlineDecision reasonableParagraphs tag then
      some (afterTag st.fragments st.style_stack st.current_style
        (trimEnd cf ++ ['\n']) true)
    else
      some (afterTag st.fragments st.style_stack st.current_style cf false)

/-- Result of one iteration of the `while let` loop (lines 98-171). -/
inductive StepRes where
  | cont (s : ScanState)
  | exit (s : ScanState)
  | panicked
deriving DecidableEq, Repr

/-- One iteration of the scan loop: search for '<' from `search_start`,
classify it, handle it, and apply the early-exit check of lines 167-170. -/
def scanStep (text : List Char) (reasonableParagraphs : Bool) (st : ScanState) :
    StepRes :=
  match findChar (fun c => c == '<') (text.drop st.search_start) with
  | none => .exit st
  | some rel =>
    let tagStartByte := st.search_start + rel
    match tryParseTag (text.drop tagStartByte) with
    | none => .panicked
    | some none =>
      let st' := { st with search_start := tagStartByte + 1 }
      if text.length ≤ st'.search_start then .exit st' else .cont st'
    | some (some (tag, tagLen)) =>
      match handleRecognizedTag text reasonableParagraphs st tagStartByte tag tagLen with
      | none => .panicked
      | some st' => if text.length ≤ st'.search_start then .exit st' else .cont st'

/-- The scan loop, fuel-indexed so that it evaluates by `rfl`/`decide`.
`none` = fuel exhausted (provably unreachable with fuel `text.length + 1`),
`some none` = panic, `some (some st)` = normal loop exit with final locals. -/
def scanLoop (text : List Char) (reasonableParagraphs : Bool) :
    Nat → ScanState → Option (Option ScanState)
  | 0, _ => none
  | fuel + 1, st =>
    match scanStep text reasonableParagraphs st with
    | .panicked => some none
    | .exit s => some (some s)
    | .cont s => scanLoop text reasonableParagraphs fuel s

/-- `fragments.last_mut().map(|last| last.text.truncate(last.text.trim_end().len()))`. -/
def trimLastFragment : List TextFragment → List TextFragment
  | [] => []
  | [f] => [⟨trimEnd f.text, f.style⟩]
  | f :: g :: rest => f :: trimLastFragment (g :: rest)

/-- Lines 173-188 of `parse_text`: final flush (note: from `search_start`,
not `cursor`), push of the last fragment, empty filter, last-fragment trim. -/
def finishUp (text : List Char) (st : ScanState) : RichText :=
  let current_fragment :=
    if st.search_start < text.length then
      st.current_fragment ++ text.drop st.search_start
    else st.current_fragment
  let fragments := st.fragments ++ [⟨current_fragment, st.current_style⟩]
  let fragments := fragments.filter (fun frag => !(frag.text.isEmpty))
  let fragments := trimLastFragment fragments
  ⟨fragments⟩

/-- `parse_text` from `descriptions.rs`.  `none` models a panic (the fuel
bound never fires: see the termination theorem); `some (Except.ok rt)` models
`Ok(rt)`.  No code path builds `Except.error`, mirroring the source. -/
def parse_text (text : List Char) : Option (Except Unit RichText) :=
  let reasonableParagraphs := strContains ("</p>".toList) text
  match scanLoop text reasonableParagraphs (text.length + 1) initState with
  | none => none
  | some none => none
  | some (some st) => some (Except.ok (finishUp text st))

/-- Fragments of a successful parse, `[]` for a panic (used to state
evaluation facts about concrete inputs without binders). -/
def okFragments : Option (Except Unit RichText) → List TextFragment
  | some (Except.ok rt) => rt.fragments
  | _ => []

/-! ## Fidelity checks: the unit tests of `descriptions.rs` -/

set_option maxRecDepth 100000

theorem model_test_simple_bold :
    parse_text ("Partially <b>bold</b> text.".toList) =
      some (Except.ok ⟨[⟨"Partially ".toList, ⟨false, false⟩⟩,
        ⟨"bold".toList, ⟨true, false⟩⟩,
        ⟨" text.".toList, ⟨false, false⟩⟩]⟩) := by
  rfl

theorem model_test_simple_italic :
    parse_text ("Partially <i>italic</i> text.".toList) =
      some (Except.ok ⟨[⟨"Partially ".toList, ⟨false, false⟩⟩,
        ⟨"italic".toList, ⟨false, true⟩⟩,
        ⟨" text.".toList, ⟨false, false⟩⟩]⟩) := by
  rfl

theorem model_test_normal_paragraphs_and_line_breaks :
    parse_text (("<p>A sensible paragraph.</p> <p>Another paragraph that" ++
        "<br>contains two<br>line breaks.</p>").toList) =
      some (Except.ok ⟨[⟨("A sensible paragraph.\nAnother paragraph that" ++
        "\ncontains two\nline breaks.").toList, ⟨false, false⟩⟩]⟩) := by
  rfl

theorem model_test_wonky_paragraphs :
    parse_text ("Some text with <p> wonky paragraphs.".toList) =
      some (Except.ok ⟨[⟨"Some text with\nwonky paragraphs.".toList,
        ⟨false, false⟩⟩]⟩) := by
  rfl

theorem model_test_mixed_styles_and_paragraphs :
    parse_text (("<p>A paragraph, that is <b>partially bold</b>.</p><p>And a " ++
        "<i>partially italic</i> one.</p>Plus some text that <b><i>is both.</i></b>").toList) =
      some (Except.ok ⟨[⟨"A paragraph, that is ".toList, ⟨false, false⟩⟩,
        ⟨"partially bold".toList, ⟨true, false⟩⟩,
        ⟨".\nAnd a ".toList, ⟨false, false⟩⟩,
        ⟨"partially italic".toList, ⟨false, true⟩⟩,
        ⟨" one.\nPlus some text that ".toList, ⟨false, false⟩⟩,
        ⟨"is both.".toList, ⟨true, true⟩⟩]⟩) := by
  rfl

/-! ## Helper lemmas about the search and trim primitives -/

theorem findChar_eq_none_spec (p : Char → Bool) (l : List Char)
    (h : findChar p l = none) : ∀ c ∈ l, p c = false := by
  induction l with
  | nil => intro c hc; cases hc
  | cons a t ih =>
    intro c hc
    unfold findChar at h
    by_cases hp : p a
    · simp [hp] at h
    · rw [if_neg hp] at h
      rcases List.mem_cons.mp hc with rfl | hc
      · exact Bool.eq_false_iff.mpr hp
      · exact ih (by simpa using h) c hc

theorem findChar_eq_some_spec (p : Char → Bool) :
    ∀ (l : List Char) (i : Nat), findChar p l = some i →
      (∃ c, l[i]? = some c ∧ p c = true) ∧
      (∀ j, j < i → ∀ c, l[j]? = some c → p c = false) := by
  intro l
  induction l with
  | nil => intro i h; simp [findChar] at h
  | cons a t ih =>
    intro i h
    unfold findChar at h
    by_cases hp : p a
    · rw [if_pos hp] at h
      cases h
      exact ⟨⟨a, by simp, hp⟩, fun j hj => by omega⟩
    · rw [if_neg hp] at h
      rcases Option.map_eq_some'.mp h with ⟨i', hi', rfl⟩
      obtain ⟨⟨c, hc, hpc⟩, hbefore⟩ := ih i' hi'
      refine ⟨⟨c, by simpa using hc, hpc⟩, ?_⟩
      intro j hj c' hc'
      cases j with
      | zero =>
        simp at hc'
        subst hc'
        exact Bool.eq_false_iff.mpr hp
      | succ j' =>
        exact hbefore j' (by omega) c' (by simpa using hc')

theorem findChar_cons (p : Char → Bool) (c : Char) (rest : List Char) :
    findChar p (c :: rest) = if p c then some 0 else (findChar p rest).map (· + 1) :=
  rfl

theorem findChar_append_left (p : Char → Bool) (a b : List Char)
    (ha : ∀ c ∈ a, p c = false) :
    findChar p (a ++ b) = (findChar p b).map (· + a.length) := by
  induction a with
  | nil =>
    simp only [List.nil_append, List.length_nil]
    cases findChar p b <;> simp
  | cons x t ih =>
    have hx : p x = false := ha x (by simp)
    have ht : ∀ c ∈ t, p c = false := fun c hc => ha c (by simp [hc])
    rw [List.cons_append, findChar_cons, if_neg (by simp [hx]), ih ht]
    cases findChar p b with
    | none => simp
    | some v => simp [Nat.add_assoc]

theorem head_dropWhile_false (p : Char → Bool) :
    ∀ (l : List Char) (c : Char), (l.dropWhile p).head? = some c → p c = false := by
  intro l
  induction l with
  | nil => intro c h; simp [List.dropWhile] at h
  | cons a t ih =>
    intro c h
    rw [List.dropWhile_cons] at h
    by_cases hp : p a
    · rw [if_pos hp] at h
      exact ih c h
    · rw [if_neg hp] at h
      simp at h
      subst h
      exact Bool.eq_false_iff.mpr hp

theorem trimEnd_getLast?_not_ws (s : List Char) (c : Char)
    (h : (trimEnd s).getLast? = some c) : rustIsWhitespace c = false := by
  unfold trimEnd at h
  rw [List.getLast?_reverse] at h
  exact head_dropWhile_false _ _ _ h

/-! ## Concrete evaluations settling the negative parts of the claims -/

/-- C1 (counterexample): on the input `"</b>"` — a closing style tag with no
matching open — `parse_text` does not report a failure to the caller: the
model returns `none` (the source panics in `style_stack.pop().unwrap()`), so
no `Result` value, in particular no error variant, ever reaches the caller.
This refutes the claim that the failure is "reported to the caller ... rather
than causing ... a crash". -/
theorem C1_counterexample :
    parse_text ("</b>".toList) = none ∧
    parse_text ("</b>".toList) ≠ some (Except.error ()) := by
  have h0 : parse_text ("</b>".toList) = none := rfl
  refine ⟨h0, fun hcontra => ?_⟩
  rw [h0] at hcontra
  exact Option.noConfusion hcontra

/-- C2 (code_bug evaluation): on the input `"ab<"`, whose final character is
an unterminated tag-open marker, the source calls `try_parse_tag("<")`, which
reads `bytes[1]` out of bounds and panics (modelled by `none`), instead of
classifying the marker as "not a tag" and preserving the trailing text. -/
theorem C2_panic_eval : parse_text ("ab<".toList) = none := by
  rfl

/-- C3 (counterexample): on `"a<b> "` the result contains a fragment with
empty text: the source filters empty fragments *before* trimming the last
fragment, so an all-whitespace last fragment survives the filter and is then
trimmed to empty.  This refutes "no fragment in that result has empty text". -/
theorem C3_counterexample :
    ¬ (∀ f ∈ okFragments (parse_text ("a<b> ".toList)), f.text ≠ []) := by
  intro h
  have h0 : okFragments (parse_text ("a<b> ".toList)) =
      [⟨"a".toList, ⟨false, false⟩⟩, ⟨[], ⟨true, false⟩⟩] := rfl
  exact absurd rfl (h ⟨[], ⟨true, false⟩⟩ (by rw [h0]; simp))

/-- C4 (code_bug evaluation): the input `"a<b c"` contains no recognized tag
(`try_parse_tag` rejects the `<` since no `>` follows), so the claim demands
one unstyled fragment `"a<b c"`.  The source instead returns `"b c"`: the
final flush at line 176 copies from `search_start` (already advanced past the
rejected marker) instead of from `cursor`, silently dropping `"a<"`. -/
theorem C4_drop_eval :
    parse_text ("a<b c".toList) =
      some (Except.ok ⟨[⟨"b c".toList, ⟨false, false⟩⟩]⟩) := by
  rfl

/-- C8 (counterexample): the tag recognizer does not survive a candidate
consisting of the lone final `'<'` of the input: the source reads `bytes[1]`
out of bounds (modelled `none`, a panic) instead of returning "not a tag"
(`some none`).  This refutes "for any other name (or no '>' before input end)
the '<' is not consumed as a tag" in its full generality. -/
theorem C8_counterexample :
    tryParseTag ("<".toList) = none ∧ tryParseTag ("<".toList) ≠ some none := by
  have h0 : tryParseTag ("<".toList) = none := rfl
  refine ⟨h0, fun hcontra => ?_⟩
  rw [h0] at hcontra
  exact Option.noConfusion hcontra

/-! ## Substring, membership and whitespace-skip support -/

theorem mem_of_getElemOpt {l : List Char} {i : Nat} {a : Char}
    (h : l[i]? = some a) : a ∈ l := by
  have hlt : i < l.length := (List.getElem?_eq_some.mp h).1
  have hg : l[i] = a := by simpa [List.getElem?_eq_getElem hlt] using h
  exact hg ▸ List.getElem_mem hlt

theorem strContains_iff (pat : List Char) :
    ∀ text, strContains pat text = true ↔ ∃ a b, text = a ++ (pat ++ b) := by
  intro text
  induction text with
  | nil =>
    simp only [strContains]
    rw [ List.isPrefixOf_iff_prefix]
    constructor
    · rintro ⟨t, ht⟩
      exact ⟨[], t, by simp [ht.symm]⟩
    · rintro ⟨a, b, hab⟩
      have ha : a = [] := by
        cases a with
        | nil => rfl
        | cons x xs => exact absurd hab (by simp)
      subst ha
      have hpb : pat ++ b = [] := by simpa using hab.symm
      exact ⟨b, hpb⟩
  | cons c rest ih =>
    simp only [strContains, Bool.or_eq_true]
    rw [ List.isPrefixOf_iff_prefix, ih]
    constructor
    · rintro (⟨t, ht⟩ | ⟨a, b, hab⟩)
      · exact ⟨[], t, by simp [ht]⟩
      · exact ⟨c :: a, b, by simp [hab]⟩
    · rintro ⟨a, b, hab⟩
      cases a with
      | nil => exact Or.inl ⟨b, by simpa using hab.symm⟩
      | cons x a' =>
        right
        have h2 : c = x ∧ rest = a' ++ (pat ++ b) := by simpa using hab
        exact ⟨a', b, h2.2⟩

/-- Arithmetic of the whitespace skip of lines 154-158: from `base` (the
first position after a consumed tag), the cursor lands past every whitespace
character and on a non-whitespace character when one remains. -/
theorem skip_whitespace_spec (text : List Char) (base : Nat) :
    base ≤ base + ((findChar (fun ch => !(rustIsWhitespace ch)) (text.drop base)).getD text.length) ∧
    (∀ i ch, base ≤ i →
      i < base + ((findChar (fun ch => !(rustIsWhitespace ch)) (text.drop base)).getD text.length) →
      text[i]? = some ch → rustIsWhitespace ch = true) ∧
    (∀ ch, text[base + ((findChar (fun ch => !(rustIsWhitespace ch)) (text.drop base)).getD text.length)]? = some ch →
      rustIsWhitespace ch = false) := by
  cases h : findChar (fun ch => !(rustIsWhitespace ch)) (text.drop base) with
  | none =>
    have hall := findChar_eq_none_spec _ _ h
    simp only [Option.getD_none]
    refine ⟨Nat.le_add_right _ _, ?_, ?_⟩
    · intro i ch hbi _ hsome
      have h1 : (text.drop base)[i - base]? = text[i]? := by
        rw [List.getElem?_drop, Nat.add_sub_cancel' hbi]
      have := hall ch (mem_of_getElemOpt (h1.trans hsome))
      simpa using this
    · intro ch hsome
      rw [List.getElem?_eq_none (Nat.le_add_left _ _)] at hsome
      exact Option.noConfusion hsome
  | some idx =>
    obtain ⟨⟨c0, hc0, hpc0⟩, hbefore⟩ := findChar_eq_some_spec _ _ _ h
    simp only [Option.getD_some]
    refine ⟨Nat.le_add_right _ _, ?_, ?_⟩
    · intro i ch hbi hic hsome
      have hj : i - base < idx := by omega
      have h1 : (text.drop base)[i - base]? = text[i]? := by
        rw [List.getElem?_drop, Nat.add_sub_cancel' hbi]
      have := hbefore (i - base) hj ch (h1.trans hsome)
      simpa using this
    · intro ch hsome
      have h1 : (text.drop base)[idx]? = text[base + idx]? := List.getElem?_drop _ _ _
      have h2 : text[base + idx]? = some c0 := h1.symm.trans hc0
      have hch : ch = c0 := Option.some.inj (hsome.symm.trans h2)
      subst hch
      simpa using hpc0

/-- C5: the paragraph convention is fixed by the prepass exactly when the
input contains the closing paragraph marker `"</p>"` (well-formed = `true`,
separator-style = `false`; `parse_text` computes it once and the scan only
reads it); during the scan a line-break tag always forces a break, a
paragraph tag forces a break only when closing under the well-formed
convention and unconditionally under the separator-style convention, and
style tags never force a break. -/
theorem C5_paragraph_convention :
    (∀ text : List Char,
      strContains ("</p>".toList) text = true ↔
        ∃ a b, text = a ++ ("</p>".toList ++ b)) ∧
    (∀ (r : Bool) (tag : Tag), tag.ty = TagType.Linebreak →
      pushNewlineDecision r tag = true) ∧
    (∀ tag : Tag, tag.ty = TagType.Paragraph →
      pushNewlineDecision true tag = !tag.isOpen ∧
      pushNewlineDecision false tag = true) ∧
    (∀ (r : Bool) (tag : Tag), tag.ty = TagType.Bold ∨ tag.ty = TagType.Italic →
      pushNewlineDecision r tag = false) := by
  refine ⟨fun text => strContains_iff _ text, ?_, ?_, ?_⟩
  · intro r tag h
    obtain ⟨ty, op⟩ := tag
    have h' : ty = TagType.Linebreak := h
    subst h'
    rfl
  · intro tag h
    obtain ⟨ty, op⟩ := tag
    have h' : ty = TagType.Paragraph := h
    subst h'
    exact ⟨rfl, rfl⟩
  · intro r tag h
    obtain ⟨ty, op⟩ := tag
    have h' : ty = TagType.Bold ∨ ty = TagType.Italic := h
    rcases h' with rfl | rfl <;> rfl

/-- Witness for C5 at concrete tags and a concrete input. -/
theorem C5_witness :
    (strContains ("</p>".toList) ("a</p>b".toList) = true ↔
      ∃ a b, "a</p>b".toList = a ++ ("</p>".toList ++ b)) ∧
    pushNewlineDecision false ⟨TagType.Linebreak, true⟩ = true ∧
    pushNewlineDecision true ⟨TagType.Paragraph, true⟩ = !(true : Bool) ∧
    pushNewlineDecision false ⟨TagType.Paragraph, true⟩ = true ∧
    pushNewlineDecision true ⟨TagType.Bold, true⟩ = false :=
  ⟨C5_paragraph_convention.1 _,
   C5_paragraph_convention.2.1 false _ rfl,
   (C5_paragraph_convention.2.2.1 _ rfl).1,
   (C5_paragraph_convention.2.2.1 _ rfl).2,
   C5_paragraph_convention.2.2.2 true _ (Or.inl rfl)⟩

/-- C6: when a structural tag forces a break, the handler (a) right-trims the
accumulated fragment text, (b) appends exactly one newline, and (c) places
the cursor (and search cursor) past the maximal whitespace run following the
tag: everything between the tag end and the new cursor is whitespace and the
character at the new cursor, when one exists, is not. -/
theorem C6_break_semantics (text : List Char) (reasonable : Bool)
    (st : ScanState) (tagStartByte tagLen : Nat) (tag : Tag)
    (hstyle : tag.ty.is_style = false)
    (hpush : pushNewlineDecision reasonable tag = true) :
    ∃ st', handleRecognizedTag text reasonable st tagStartByte tag tagLen = some st' ∧
      st'.current_fragment =
        trimEnd (st.current_fragment ++
          (text.drop st.cursor).take (tagStartByte - st.cursor)) ++ ['\n'] ∧
      st'.search_start = st'.cursor ∧
      tagStartByte + tagLen ≤ st'.cursor ∧
      (∀ i ch, tagStartByte + tagLen ≤ i → i < st'.cursor → text[i]? = some ch →
        rustIsWhitespace ch = true) ∧
      (∀ ch, text[st'.cursor]? = some ch → rustIsWhitespace ch = false) := by
  obtain ⟨hle, hws, hstop⟩ := skip_whitespace_spec text (tagStartByte + tagLen)
  refine ⟨{ fragments := st.fragments, style_stack := st.style_stack,
            current_style := st.current_style,
            cursor := tagStartByte + tagLen +
              ((findChar (fun ch => !(rustIsWhitespace ch))
                (text.drop (tagStartByte + tagLen))).getD text.length),
            current_fragment := trimEnd (st.current_fragment ++
              (text.drop st.cursor).take (tagStartByte - st.cursor)) ++ ['\n'],
            search_start := tagStartByte + tagLen +
              ((findChar (fun ch => !(rustIsWhitespace ch))
                (text.drop (tagStartByte + tagLen))).getD text.length) },
          ?_, rfl, rfl, hle, hws, hstop⟩
  unfold handleRecognizedTag
  rw [if_neg (by rw [hstyle]; exact Bool.false_ne_true), if_pos hpush]
  rfl

/-- Witness for C6: a line-break tag at the start of `"<br>  x"`. -/
theorem C6_witness :
    ∃ st', handleRecognizedTag ("<br>  x".toList) false initState 0 ⟨TagType.Linebreak, true⟩ 4 = some st' ∧
      st'.current_fragment =
        trimEnd (initState.current_fragment ++
          (("<br>  x".toList).drop initState.cursor).take (0 - initState.cursor)) ++ ['\n'] ∧
      st'.search_start = st'.cursor ∧
      0 + 4 ≤ st'.cursor ∧
      (∀ i ch, 0 + 4 ≤ i → i < st'.cursor → ("<br>  x".toList)[i]? = some ch →
        rustIsWhitespace ch = true) ∧
      (∀ ch, ("<br>  x".toList)[st'.cursor]? = some ch → rustIsWhitespace ch = false) :=
  C6_break_semantics ("<br>  x".toList) false initState 0 4 ⟨TagType.Linebreak, true⟩ rfl rfl

/-- C7: a style tag flushes the accumulated text as a fragment carrying the
style active before the tag and restarts accumulation empty; an opening
style tag pushes the current style and sets the named attribute true; a
closing style tag pops the stack and adopts the popped value regardless of
which attribute it names, and panics (models as `none`) on an empty stack. -/
theorem C7_style_tags (text : List Char) (reasonable : Bool) (st : ScanState)
    (tagStartByte tagLen : Nat) (tag : Tag)
    (hstyle : tag.ty = TagType.Bold ∨ tag.ty = TagType.Italic) :
    (∀ st', handleRecognizedTag text reasonable st tagStartByte tag tagLen = some st' →
      st'.fragments = st.fragments ++
        [⟨st.current_fragment ++ (text.drop st.cursor).take (tagStartByte - st.cursor),
          st.current_style⟩] ∧
      st'.current_fragment = []) ∧
    (tag.isOpen = true →
      ∃ st', handleRecognizedTag text reasonable st tagStartByte tag tagLen = some st' ∧
        st'.style_stack = st.current_style :: st.style_stack ∧
        st'.current_style.bold = (st.current_style.bold || decide (tag.ty = TagType.Bold)) ∧
        st'.current_style.italic = (st.current_style.italic || decide (tag.ty = TagType.Italic))) ∧
    (tag.isOpen = false →
      (st.style_stack = [] →
        handleRecognizedTag text reasonable st tagStartByte tag tagLen = none) ∧
      (∀ s restStack, st.style_stack = s :: restStack →
        ∃ st', handleRecognizedTag text reasonable st tagStartByte tag tagLen = some st' ∧
          st'.current_style = s ∧ st'.style_stack = restStack)) := by
  obtain ⟨ty, op⟩ := tag
  obtain ⟨frs, stk, cur, curs, cf0, ss⟩ := st
  have hstyle' : ty = TagType.Bold ∨ ty = TagType.Italic := hstyle
  rcases hstyle' with rfl | rfl <;> cases op
  · -- Bold, closing
    refine ⟨?_, ?_, ?_⟩
    · intro st' heq
      cases stk with
      | nil => exact Option.noConfusion heq
      | cons s rest =>
        obtain rfl := (Option.some.inj heq).symm
        exact ⟨rfl, rfl⟩
    · intro h
      exact absurd h (by simp)
    · intro _
      refine ⟨?_, ?_⟩
      · intro hstk
        cases hstk
        rfl
      · intro s rest hstk
        cases hstk
        exact ⟨_, rfl, rfl, rfl⟩
  · -- Bold, opening
    refine ⟨?_, ?_, ?_⟩
    · intro st' heq
      obtain rfl := (Option.some.inj heq).symm
      exact ⟨rfl, rfl⟩
    · intro _
      exact ⟨_, rfl, rfl, by simp, by simp⟩
    · intro h
      exact absurd h (by simp)
  · -- Italic, closing
    refine ⟨?_, ?_, ?_⟩
    · intro st' heq
      cases stk with
      | nil => exact Option.noConfusion heq
      | cons s rest =>
        obtain rfl := (Option.some.inj heq).symm
        exact ⟨rfl, rfl⟩
    · intro h
      exact absurd h (by simp)
    · intro _
      refine ⟨?_, ?_⟩
      · intro hstk
        cases hstk
        rfl
      · intro s rest hstk
        cases hstk
        exact ⟨_, rfl, rfl, rfl⟩
  · -- Italic, opening
    refine ⟨?_, ?_, ?_⟩
    · intro st' heq
      obtain rfl := (Option.some.inj heq).symm
      exact ⟨rfl, rfl⟩
    · intro _
      exact ⟨_, rfl, rfl, by simp, by simp⟩
    · intro h
      exact absurd h (by simp)

/-- Witness for C7: an opening bold tag over `"x<b>y"` from the initial state. -/
theorem C7_witness :
    (∀ st', handleRecognizedTag ("x<b>y".toList) false initState 1 ⟨TagType.Bold, true⟩ 3 = some st' →
      st'.fragments = initState.fragments ++
        [⟨initState.current_fragment ++
          (("x<b>y".toList).drop initState.cursor).take (1 - initState.cursor),
          initState.current_style⟩] ∧
      st'.current_fragment = []) ∧
    ((true : Bool) = true →
      ∃ st', handleRecognizedTag ("x<b>y".toList) false initState 1 ⟨TagType.Bold, true⟩ 3 = some st' ∧
        st'.style_stack = initState.current_style :: initState.style_stack ∧
        st'.current_style.bold = (initState.current_style.bold ||
          decide ((⟨TagType.Bold, true⟩ : Tag).ty = TagType.Bold)) ∧
        st'.current_style.italic = (initState.current_style.italic ||
          decide ((⟨TagType.Bold, true⟩ : Tag).ty = TagType.Italic))) ∧
    ((true : Bool) = false →
      (initState.style_stack = [] →
        handleRecognizedTag ("x<b>y".toList) false initState 1 ⟨TagType.Bold, true⟩ 3 = none) ∧
      (∀ s restStack, initState.style_stack = s :: restStack →
        ∃ st', handleRecognizedTag ("x<b>y".toList) false initState 1 ⟨TagType.Bold, true⟩ 3 = some st' ∧
          st'.current_style = s ∧ st'.style_stack = restStack)) :=
  C7_style_tags ("x<b>y".toList) false initState 1 3 ⟨TagType.Bold, true⟩ (Or.inl rfl)

/-! ## Termination of the scan loop -/

theorem tryParseTag_len_pos :
    ∀ (l : List Char) (tag : Tag) (n : Nat),
      tryParseTag l = some (some (tag, n)) → 1 ≤ n := by
  intro l tag n h
  match l with
  | [] => exact Option.noConfusion h
  | [c] => exact Option.noConfusion h
  | c0 :: c1 :: rest =>
    simp only [tryParseTag] at h
    split at h
    · exact Option.noConfusion (Option.some.inj h)
    · split at h
      · exact Option.noConfusion (Option.some.inj h)
      · obtain ⟨h1, h2⟩ := Prod.mk.injEq .. ▸ Option.some.inj (Option.some.inj h)
        omega

theorem handle_search_start_ge (text : List Char) (r : Bool) (st : ScanState)
    (tsb : Nat) (tag : Tag) (tl : Nat) (st' : ScanState)
    (h : handleRecognizedTag text r st tsb tag tl = some st') :
    tsb + tl ≤ st'.search_start := by
  simp only [handleRecognizedTag] at h
  split at h
  · split at h
    · split at h
      · obtain rfl := Option.some.inj h
        exact Nat.le_refl _
      · obtain rfl := Option.some.inj h
        exact Nat.le_refl _
      · exact Option.noConfusion h
    · split at h
      · exact Option.noConfusion h
      · obtain rfl := Option.some.inj h
        exact Nat.le_refl _
  · split at h
    · obtain rfl := Option.some.inj h
      exact Nat.le_add_right _ _
    · obtain rfl := Option.some.inj h
      exact Nat.le_refl _

theorem scanStep_cont_spec (text : List Char) (r : Bool) (st st' : ScanState)
    (h : scanStep text r st = StepRes.cont st') :
    st.search_start < st'.search_start ∧ st'.search_start < text.length := by
  simp only [scanStep] at h
  split at h
  · exact StepRes.noConfusion h
  · rename_i rel hfind
    split at h
    · exact StepRes.noConfusion h
    · split at h
      · exact StepRes.noConfusion h
      · obtain rfl := StepRes.cont.inj h
        rename_i hcond
        have hc2 : ¬ text.length ≤ st.search_start + rel + 1 := hcond
        constructor
        · show st.search_start < st.search_start + rel + 1
          omega
        · show st.search_start + rel + 1 < text.length
          omega
    · rename_i tg tl hparse
      split at h
      · exact StepRes.noConfusion h
      · rename_i st1 hhandle
        split at h
        · exact StepRes.noConfusion h
        · obtain rfl := StepRes.cont.inj h
          rename_i hcond
          have h1 : st.search_start + rel + tl ≤ st1.search_start :=
            handle_search_start_ge text r st (st.search_start + rel) tg tl st1 hhandle
          have h2 : 1 ≤ tl :=
            tryParseTag_len_pos (text.drop (st.search_start + rel)) tg tl hparse
          have hc2 : ¬ text.length ≤ st1.search_start := hcond
          exact ⟨by omega, by omega⟩

theorem scanLoop_fuel_sufficient (text : List Char) (r : Bool) :
    ∀ (fuel : Nat) (st : ScanState), text.length - st.search_start < fuel →
      scanLoop text r fuel st ≠ none := by
  intro fuel
  induction fuel with
  | zero => intro st h; omega
  | succ n ih =>
    intro st h
    simp only [scanLoop]
    cases hs : scanStep text r st with
    | panicked => simp
    | exit s => simp
    | cont s =>
      obtain ⟨hadv, hlt⟩ := scanStep_cont_spec text r st s hs
      exact ih s (by omega)

/-- C9: the scan loop terminates on every input: each `cont` iteration
strictly advances the search cursor, and the loop run by `parse_text` (with
fuel `text.length + 1`) never exhausts its fuel, so the conversion runs to
completion. -/
theorem C9_termination :
    (∀ (text : List Char) (r : Bool) (st st' : ScanState),
      scanStep text r st = StepRes.cont st' → st.search_start < st'.search_start) ∧
    (∀ (text : List Char) (r : Bool),
      scanLoop text r (text.length + 1) initState ≠ none) := by
  constructor
  · intro text r st st' h
    exact (scanStep_cont_spec text r st st' h).1
  · intro text r
    apply scanLoop_fuel_sufficient
    show text.length - initState.search_start < text.length + 1
    omega

/-- Witness for C9: one `cont` iteration on `"a<z>b"` (the `<` is rejected)
and fuel sufficiency on the same input. -/
theorem C9_witness :
    initState.search_start <
      ({ initState with search_start := 0 + 1 + 1 } : ScanState).search_start ∧
    scanLoop ("a<z>b".toList) false (("a<z>b".toList).length + 1) initState ≠ none :=
  ⟨C9_termination.1 ("a<z>b".toList) false initState _ rfl,
   C9_termination.2 ("a<z>b".toList) false⟩

/-- C10: whenever `parse_text` returns a `Result` at all (rather than
panicking), that result is the `Ok` variant: no path builds the error
variant, so a caller never observes a reported parse failure as a value. -/
theorem C10_no_error (text : List Char) (res : Except Unit RichText)
    (h : parse_text text = some res) : ∃ rt, res = Except.ok rt := by
  simp only [parse_text] at h
  split at h
  · exact Option.noConfusion h
  · exact Option.noConfusion h
  · exact ⟨_, (Option.some.inj h).symm⟩

/-- Witness for C10 at the input `"hi"`. -/
theorem C10_witness :
    ∃ rt, (Except.ok (⟨[⟨"hi".toList, ⟨false, false⟩⟩]⟩ : RichText) : Except Unit RichText) =
      Except.ok rt :=
  C10_no_error ("hi".toList) _ rfl

/-! ## Stack underflow panics (C1) -/

/-- C1 (amended): an unmatched closing style tag aborts the conversion with a
panic rather than a reported failure: for any input made of `'<'`-free
literal text followed by `</b>` or `</i>` (and anything after), `parse_text`
returns no value at all — neither a partial result nor an error value. -/
theorem C1_amended (p s : List Char) (c : Char)
    (hp : '<' ∉ p) (hc : c = 'b' ∨ c = 'i') :
    parse_text (p ++ ('<' :: '/' :: c :: '>' :: s)) = none := by
  have hplt : ∀ ch ∈ p, (ch == '<') = false := fun ch hch =>
    beq_eq_false_iff_ne.mpr (fun h' => hp (h' ▸ hch))
  have hfind : findChar (fun ch => ch == '<')
      ((p ++ ('<' :: '/' :: c :: '>' :: s)).drop initState.search_start) =
      some (0 + p.length) := by
    show findChar (fun ch => ch == '<') (p ++ ('<' :: '/' :: c :: '>' :: s)) =
      some (0 + p.length)
    rw [findChar_append_left _ _ _ hplt]
    rfl
  have hdrop : (p ++ ('<' :: '/' :: c :: '>' :: s)).drop
      (initState.search_start + (0 + p.length)) = ('<' :: '/' :: c :: '>' :: s) := by
    show (p ++ ('<' :: '/' :: c :: '>' :: s)).drop (0 + (0 + p.length)) = _
    simp only [Nat.zero_add]
    exact List.drop_left _ _
  have hstep : scanStep (p ++ ('<' :: '/' :: c :: '>' :: s))
      (strContains ("</p>".toList) (p ++ ('<' :: '/' :: c :: '>' :: s)))
      initState = StepRes.panicked := by
    simp only [scanStep, hfind]
    rw [hdrop]
    rcases hc with rfl | rfl <;> rfl
  simp only [parse_text, scanLoop, hstep]

/-- Witness for C1 at the concrete input `"x</b>y"`. -/
theorem C1_witness :
    parse_text (("x".toList) ++ ('<' :: '/' :: 'b' :: '>' :: "y".toList)) = none :=
  C1_amended ("x".toList) ("y".toList) 'b' (by decide) (Or.inl rfl)

/-! ## Shape of successful results (C3, C10) -/

theorem parse_text_shape (text : List Char) (rt : RichText)
    (h : parse_text text = some (Except.ok rt)) :
    ∃ st, rt = finishUp text st := by
  simp only [parse_text] at h
  split at h
  · exact Option.noConfusion h
  · exact Option.noConfusion h
  · rename_i st heq
    exact ⟨st, (Except.ok.inj (Option.some.inj h)).symm⟩

theorem finishUp_fragments_shape (text : List Char) (st : ScanState) :
    ∃ l : List TextFragment, (finishUp text st).fragments =
      trimLastFragment (l.filter (fun frag => !(frag.text.isEmpty))) := by
  refine ⟨st.fragments ++
    [⟨if st.search_start < text.length then
        st.current_fragment ++ text.drop st.search_start
      else st.current_fragment, st.current_style⟩], ?_⟩
  rfl

theorem trimLastFragment_ne_nil (l : List TextFragment) (h : l ≠ []) :
    trimLastFragment l ≠ [] := by
  cases l with
  | nil => exact absurd rfl h
  | cons f rest =>
    cases rest with
    | nil => simp [trimLastFragment]
    | cons g r => simp [trimLastFragment]

theorem trimLastFragment_dropLast (l : List TextFragment) :
    (trimLastFragment l).dropLast = l.dropLast := by
  induction l with
  | nil => rfl
  | cons f rest ih =>
    cases rest with
    | nil => rfl
    | cons g r =>
      have hL : trimLastFragment (g :: r) ≠ [] :=
        trimLastFragment_ne_nil (g :: r) (by simp)
      cases hLeq : trimLastFragment (g :: r) with
      | nil => exact absurd hLeq hL
      | cons y ys =>
        show (f :: trimLastFragment (g :: r)).dropLast = (f :: g :: r).dropLast
        rw [hLeq, List.dropLast_cons₂, List.dropLast_cons₂, ← hLeq, ih]

theorem trimLastFragment_last_not_ws (l : List TextFragment) :
    ∀ f, (trimLastFragment l).getLast? = some f →
      ∀ ch, f.text.getLast? = some ch → rustIsWhitespace ch = false := by
  induction l with
  | nil => intro f h; exact Option.noConfusion h
  | cons x rest ih =>
    cases rest with
    | nil =>
      intro f h ch hch
      have hf : (⟨trimEnd x.text, x.style⟩ : TextFragment) = f := by
        simpa [trimLastFragment] using h
      rw [← hf] at hch
      exact trimEnd_getLast?_not_ws x.text ch hch
    | cons g r =>
      intro f h
      have hL : trimLastFragment (g :: r) ≠ [] :=
        trimLastFragment_ne_nil (g :: r) (by simp)
      cases hLeq : trimLastFragment (g :: r) with
      | nil => exact absurd hLeq hL
      | cons y ys =>
        have h2 : (x :: trimLastFragment (g :: r)).getLast? = some f := h
        rw [hLeq, List.getLast?_cons_cons] at h2
        exact ih f (by rw [hLeq]; exact h2)

theorem filter_fragments_nonempty (l : List TextFragment) :
    ∀ f ∈ l.filter (fun frag => !(frag.text.isEmpty)), f.text ≠ [] := by
  intro f hf
  have h2 := (List.mem_filter.mp hf).2
  simpa using h2

/-- C3 (amended): in every successful result, every fragment except possibly
the last has nonempty text, and the last fragment never ends in a whitespace
character (the last fragment can be empty: the source filters empty
fragments before trimming the last one, see the counterexample). -/
theorem C3_amended (text : List Char) (rt : RichText)
    (h : parse_text text = some (Except.ok rt)) :
    (∀ f ∈ rt.fragments.dropLast, f.text ≠ []) ∧
    (∀ f, rt.fragments.getLast? = some f →
      ∀ ch, f.text.getLast? = some ch → rustIsWhitespace ch = false) := by
  obtain ⟨st, rfl⟩ := parse_text_shape text rt h
  obtain ⟨l, hl⟩ := finishUp_fragments_shape text st
  rw [hl]
  constructor
  · intro f hf
    rw [trimLastFragment_dropLast] at hf
    exact filter_fragments_nonempty l f (List.dropLast_subset _ hf)
  · exact trimLastFragment_last_not_ws _

/-- Witness for C3 at the input `"hi "`. -/
theorem C3_witness :
    (∀ f ∈ (⟨[⟨"hi".toList, ⟨false, false⟩⟩]⟩ : RichText).fragments.dropLast,
      f.text ≠ []) ∧
    (∀ f, (⟨[⟨"hi".toList, ⟨false, false⟩⟩]⟩ : RichText).fragments.getLast? = some f →
      ∀ ch, f.text.getLast? = some ch → rustIsWhitespace ch = false) :=
  C3_amended ("hi ".toList) _ rfl

/-! ## Recognizer characterization (C8) -/

theorem findChar_eq_none_of (p : Char → Bool) :
    ∀ l : List Char, (∀ c ∈ l, p c = false) → findChar p l = none := by
  intro l
  induction l with
  | nil => intro _; rfl
  | cons a t ih =>
    intro h
    rw [findChar_cons, if_neg (by simp [h a (by simp)]),
      ih (fun c hc => h c (by simp [hc]))]
    rfl

theorem tagTypeOf_eq_none (l : List Char)
    (h1 : l ≠ ['p']) (h2 : l ≠ ['b', 'r']) (h3 : l ≠ ['b']) (h4 : l ≠ ['i']) :
    tagTypeOf l = none := by
  unfold tagTypeOf
  split
  · exact absurd rfl h1
  · exact absurd rfl h2
  · exact absurd rfl h3
  · exact absurd rfl h4
  · rfl

theorem tryParseTag_no_close (c1 : Char) (rest : List Char)
    (h : '>' ∉ (c1 :: rest)) :
    tryParseTag ('<' :: c1 :: rest) = some none := by
  have hn : findChar (fun c => c == '>') ('<' :: c1 :: rest) = none := by
    apply findChar_eq_none_of
    intro c hc
    rcases List.mem_cons.mp hc with rfl | hc2
    · decide
    · exact beq_eq_false_iff_ne.mpr (fun h' => h (h' ▸ hc2))
  simp [tryParseTag, hn]

theorem tryParseTag_plain (c1 : Char) (brest suffix : List Char)
    (hc1 : (c1 == '/') = false)
    (hgt : ∀ c ∈ ('<' :: c1 :: brest), (c == '>') = false) :
    tryParseTag ('<' :: c1 :: (brest ++ '>' :: suffix)) =
      some ((tagTypeOf (c1 :: brest)).map
        (fun ty => ((⟨ty, true⟩ : Tag), brest.length + 3))) := by
  have hfind : findChar (fun c => c == '>') ('<' :: c1 :: (brest ++ '>' :: suffix)) =
      some (brest.length + 2) := by
    calc findChar (fun c => c == '>') ('<' :: c1 :: (brest ++ '>' :: suffix))
        = (findChar (fun c => c == '>') ('>' :: suffix)).map
            (· + ('<' :: c1 :: brest).length) :=
          findChar_append_left (fun c => c == '>') ('<' :: c1 :: brest) ('>' :: suffix) hgt
      _ = some (brest.length + 2) := by
          rw [findChar_cons, if_pos (show ('>' == '>') = true from rfl)]
          simp only [Option.map_some', Option.some.injEq, List.length_cons]
          omega
  cases htt : tagTypeOf (c1 :: brest) with
  | none => simp [tryParseTag, hfind, hc1, List.take_left, htt]
  | some ty => simp [tryParseTag, hfind, hc1, List.take_left, htt]

theorem tryParseTag_slash (name suffix : List Char)
    (hgt : ∀ c ∈ name, (c == '>') = false) :
    tryParseTag ('<' :: '/' :: (name ++ '>' :: suffix)) =
      some ((tagTypeOf name).map
        (fun ty => ((⟨ty, false⟩ : Tag), name.length + 3))) := by
  have ha : ∀ c ∈ ('<' :: '/' :: name), (c == '>') = false := by
    intro c hc
    rcases List.mem_cons.mp hc with rfl | hc2
    · decide
    · rcases List.mem_cons.mp hc2 with rfl | hc3
      · decide
      · exact hgt c hc3
  have hfind : findChar (fun c => c == '>') ('<' :: '/' :: (name ++ '>' :: suffix)) =
      some (name.length + 2) := by
    calc findChar (fun c => c == '>') ('<' :: '/' :: (name ++ '>' :: suffix))
        = (findChar (fun c => c == '>') ('>' :: suffix)).map
            (· + ('<' :: '/' :: name).length) :=
          findChar_append_left (fun c => c == '>') ('<' :: '/' :: name) ('>' :: suffix) ha
      _ = some (name.length + 2) := by
          rw [findChar_cons, if_pos (show ('>' == '>') = true from rfl)]
          simp only [Option.map_some', Option.some.injEq, List.length_cons]
          omega
  cases htt : tagTypeOf name with
  | none => simp [tryParseTag, hfind, List.take_left, htt]
  | some ty => simp [tryParseTag, hfind, List.take_left, htt]

/-- C8 (amended): the recognizer accepts exactly the four names `b`, `i`,
`p`, `br`, case-sensitively, closing-ness given by a `/` right after `<`, no
attributes tolerated, reporting the total length including both markers; any
other name, or a missing `>`, is rejected (`some none`) — provided at least
one character follows the `<` (a lone trailing `<` panics, see the
counterexample) — and on rejection the scan does not consume the `<`: the
read cursor is unchanged and only the search cursor advances by one. -/
theorem C8_amended :
    (∀ suffix : List Char,
      tryParseTag ('<' :: 'b' :: '>' :: suffix) =
        some (some (⟨TagType.Bold, true⟩, 3)) ∧
      tryParseTag ('<' :: 'i' :: '>' :: suffix) =
        some (some (⟨TagType.Italic, true⟩, 3)) ∧
      tryParseTag ('<' :: 'p' :: '>' :: suffix) =
        some (some (⟨TagType.Paragraph, true⟩, 3)) ∧
      tryParseTag ('<' :: 'b' :: 'r' :: '>' :: suffix) =
        some (some (⟨TagType.Linebreak, true⟩, 4)) ∧
      tryParseTag ('<' :: '/' :: 'b' :: '>' :: suffix) =
        some (some (⟨TagType.Bold, false⟩, 4)) ∧
      tryParseTag ('<' :: '/' :: 'i' :: '>' :: suffix) =
        some (some (⟨TagType.Italic, false⟩, 4)) ∧
      tryParseTag ('<' :: '/' :: 'p' :: '>' :: suffix) =
        some (some (⟨TagType.Paragraph, false⟩, 4)) ∧
      tryParseTag ('<' :: '/' :: 'b' :: 'r' :: '>' :: suffix) =
        some (some (⟨TagType.Linebreak, false⟩, 5))) ∧
    (∀ (c1 : Char) (rest : List Char), '>' ∉ (c1 :: rest) →
      tryParseTag ('<' :: c1 :: rest) = some none) ∧
    (∀ (body suffix : List Char), '>' ∉ body → body.head? ≠ some '/' →
      body ∉ ([['b'], ['i'], ['p'], ['b', 'r']] : List (List Char)) →
      tryParseTag ('<' :: (body ++ '>' :: suffix)) = some none) ∧
    (∀ (name suffix : List Char), '>' ∉ name →
      name ∉ ([['b'], ['i'], ['p'], ['b', 'r']] : List (List Char)) →
      tryParseTag ('<' :: '/' :: (name ++ '>' :: suffix)) = some none) ∧
    (∀ (text : List Char) (r : Bool) (st : ScanState) (rel : Nat),
      findChar (fun c => c == '<') (text.drop st.search_start) = some rel →
      tryParseTag (text.drop (st.search_start + rel)) = some none →
      scanStep text r st =
          StepRes.cont { st with search_start := st.search_start + rel + 1 } ∨
        scanStep text r st =
          StepRes.exit { st with search_start := st.search_start + rel + 1 }) := by
  refine ⟨?_, ?_, ?_, ?_, ?_⟩
  · intro suffix
    exact ⟨rfl, rfl, rfl, rfl, rfl, rfl, rfl, rfl⟩
  · exact tryParseTag_no_close
  · intro body suffix hbody hhead hmem
    cases body with
    | nil => rfl
    | cons c1 brest =>
      have hc1slash : (c1 == '/') = false := by
        apply beq_eq_false_iff_ne.mpr
        intro h
        exact hhead (by rw [h]; rfl)
      have hgtlist : ∀ c ∈ ('<' :: c1 :: brest), (c == '>') = false := by
        intro c hc
        rcases List.mem_cons.mp hc with rfl | hc2
        · decide
        · exact beq_eq_false_iff_ne.mpr (fun h' => hbody (h' ▸ hc2))
      show tryParseTag ('<' :: c1 :: (brest ++ '>' :: suffix)) = some none
      rw [tryParseTag_plain c1 brest suffix hc1slash hgtlist,
        tagTypeOf_eq_none (c1 :: brest)
          (fun h => hmem (by rw [h]; simp))
          (fun h => hmem (by rw [h]; simp))
          (fun h => hmem (by rw [h]; simp))
          (fun h => hmem (by rw [h]; simp))]
      rfl
  · intro name suffix hname hmem
    have hgtname : ∀ c ∈ name, (c == '>') = false :=
      fun c hc => beq_eq_false_iff_ne.mpr (fun h' => hname (h' ▸ hc))
    rw [tryParseTag_slash name suffix hgtname,
      tagTypeOf_eq_none name
        (fun h => hmem (by rw [h]; simp))
        (fun h => hmem (by rw [h]; simp))
        (fun h => hmem (by rw [h]; simp))
        (fun h => hmem (by rw [h]; simp))]
    rfl
  · intro text r st rel hfind hparse
    simp only [scanStep, hfind, hparse]
    by_cases hcond : text.length ≤ st.search_start + rel + 1
    · right
      rw [if_pos hcond]
    · left
      rw [if_neg hcond]

/-- Witness for C8 at concrete candidates and one concrete rejected scan. -/
theorem C8_witness :
    tryParseTag ('<' :: 'b' :: '>' :: ("x".toList)) =
      some (some (⟨TagType.Bold, true⟩, 3)) ∧
    tryParseTag ('<' :: 'x' :: []) = some none ∧
    tryParseTag ('<' :: (['q'] ++ '>' :: [])) = some none ∧
    tryParseTag ('<' :: '/' :: (['q'] ++ '>' :: [])) = some none ∧
    (scanStep ("a<q>b".toList) false initState =
        StepRes.cont { initState with
          search_start := initState.search_start + 1 + 1 } ∨
      scanStep ("a<q>b".toList) false initState =
        StepRes.exit { initState with
          search_start := initState.search_start + 1 + 1 }) :=
  ⟨(C8_amended.1 ("x".toList)).1,
   C8_amended.2.1 'x' [] (by decide),
   C8_amended.2.2.1 ['q'] [] (by decide) (by decide) (by decide),
   C8_amended.2.2.2.1 ['q'] [] (by decide) (by decide),
   C8_amended.2.2.2.2 ("a<q>b".toList) false initState 1 rfl rfl⟩
